import Mathlib

/-!
Verification of the core pipeline of the Celestial Orrey tracker:
the weekly-epoch calculator (`timeutil`), the completion-record model and
synthetic IDs (`models`), the fuzzy match scorer (`warcraftlogs`), the
SQLite-backed store's upsert semantics (`store`), and the polling
scheduler's dedup loop and fetch semaphore (`raiderio`).

Conventions of the embedding:
- Go `int`/`int64` values are modelled as `Int` (no wraparound is modelled;
  every quantity involved stays far below 2^63 in the verified properties,
  except where a masking step is modelled explicitly).
- Go `float64` scoring arithmetic is modelled exactly over `ℚ`.
- Wall-clock instants are modelled as minutes of local civil time in the
  fixed reset time zone, counted from a reference Sunday 00:00, so that
  `time.Weekday`, `time.Date` and `AddDate` become integer arithmetic;
  the matcher's nanosecond timestamps and durations are plain `Int`s.
- Strings are Lean `String`s; the ASCII fragment of Go's
  `strings.ToLower`/`strings.TrimSpace` is modelled character-wise.
- The SQLite tables touched by the claims are modelled relationally as
  lists of rows, with the `ON CONFLICT` clauses of the repository's
  queries translated to explicit find/replace/append operations, and
  SQLite's rule that NULLs are pairwise distinct inside UNIQUE indexes
  translated into the conflict predicate.

The file is laid out with all definitions first, then the theorems.
-/

namespace CelestialOrrey

/-! ## timeutil: the weekly reset calculator

Source: `WeeklyResetIn` (timeutil package). Time is local civil time in
the fixed reset zone, in minutes since a reference Sunday 00:00, so Go's
`n.Weekday()` is `(t / 1440) % 7` with Sunday = 0 (and Euclidean division,
which is what the civil calendar does for instants before the reference). -/

namespace Timeutil

/-- Hour of the weekly reset, from the source constant `WeeklyResetHour = 7`. -/
def WeeklyResetHour : Int := 7

/-- Go `n.Weekday()` on a local-civil-minutes instant; Sunday = 0, Tuesday = 2. -/
def weekday (t : Int) : Int := (t / 1440) % 7

/-- Start of the civil day containing `t` (what `time.Date(y, m, d, 0, 0, 0, 0, loc)`
denotes for the day of `t`). -/
def startOfDay (t : Int) : Int := (t / 1440) * 1440

/-- Embedding of `WeeklyResetIn`: step back to the most recent Tuesday, take that
day's 07:00, and step back one further week if that instant is after `now`. -/
def WeeklyResetIn (now : Int) : Int :=
  let diff := (weekday now - 2 + 7) % 7
  let tuesday := now - diff * 1440
  let reset := startOfDay tuesday + WeeklyResetHour * 60
  if now < reset then reset - 7 * 1440 else reset

/-- An instant is a weekly boundary iff it is a Tuesday at exactly 07:00 local. -/
def IsTuesdaySeven (b : Int) : Prop := weekday b = 2 ∧ b % 1440 = 420

/-- A minute count for Tuesday 06:59 of the reference week. -/
def tueSixFiftyNine : Int := 2 * 1440 + 6 * 60 + 59

/-- A minute count for Tuesday 07:00 of the reference week. -/
def tueSeven : Int := 2 * 1440 + 7 * 60

/-- A minute count for Wednesday 12:00 of the reference week. -/
def wedNoon : Int := 3 * 1440 + 12 * 60

end Timeutil

/-! ## crypto/sha256 and encoding/hex, as used by the synthetic-ID path

A byte is a `Nat` below 256; words are `Nat`s reduced mod 2^32 explicitly. -/

namespace Sha256

/-- Reduce to a 32-bit word. -/
def w32 (n : Nat) : Nat := n % 4294967296

/-- Rotate a 32-bit word right by `n` bits. -/
def rotr (n x : Nat) : Nat := w32 ((x >>> n) ||| (x <<< (32 - n)))

/-- Upper-case sigma-0 of the SHA-256 compression function. -/
def bigSigma0 (x : Nat) : Nat := rotr 2 x ^^^ rotr 13 x ^^^ rotr 22 x

/-- Upper-case sigma-1 of the SHA-256 compression function. -/
def bigSigma1 (x : Nat) : Nat := rotr 6 x ^^^ rotr 11 x ^^^ rotr 25 x

/-- Lower-case sigma-0 of the SHA-256 message schedule. -/
def smallSigma0 (x : Nat) : Nat := rotr 7 x ^^^ rotr 18 x ^^^ (x >>> 3)

/-- Lower-case sigma-1 of the SHA-256 message schedule. -/
def smallSigma1 (x : Nat) : Nat := rotr 17 x ^^^ rotr 19 x ^^^ (x >>> 10)

/-- Choice function of the compression rounds. -/
def ch (e f g : Nat) : Nat := (e &&& f) ^^^ ((e ^^^ 0xFFFFFFFF) &&& g)

/-- Majority function of the compression rounds. -/
def maj (a b c : Nat) : Nat := (a &&& b) ^^^ (a &&& c) ^^^ (b &&& c)

/-- The 64 SHA-256 round constants. -/
def K : List Nat :=
  [1116352408, 1899447441, 3049323471, 3921009573, 961987163,
   1508970993, 2453635748, 2870763221, 3624381080, 310598401,
   607225278, 1426881987, 1925078388, 2162078206, 2614888103,
   3248222580, 3835390401, 4022224774, 264347078, 604807628,
   770255983, 1249150122, 1555081692, 1996064986, 2554220882,
   2821834349, 2952996808, 3210313671, 3336571891, 3584528711,
   113926993, 338241895, 666307205, 773529912, 1294757372,
   1396182291, 1695183700, 1986661051, 2177026350, 2456956037,
   2730485921, 2820302411, 3259730800, 3345764771, 3516065817,
   3600352804, 4094571909, 275423344, 430227734, 506948616,
   659060556, 883997877, 958139571, 1322822218, 1537002063,
   1747873779, 1955562222, 2024104815, 2227730452, 2361852424,
   2428436474, 2756734187, 3204031479, 3329325298]

/-- The eight hash words carried between blocks. -/
structure Digest where
  h0 : Nat
  h1 : Nat
  h2 : Nat
  h3 : Nat
  h4 : Nat
  h5 : Nat
  h6 : Nat
  h7 : Nat
deriving DecidableEq, Repr

/-- The SHA-256 initialization vector. -/
def initDigest : Digest :=
  ⟨1779033703, 3144134277, 1013904242, 2773480762, 1359893119, 2600822924, 528734635, 1541459225⟩

/-- The eight working registers of the compression loop. -/
structure Regs where
  a : Nat
  b : Nat
  c : Nat
  d : Nat
  e : Nat
  f : Nat
  g : Nat
  h : Nat
deriving DecidableEq, Repr

/-- One compression round, consuming a (round constant, schedule word) pair. -/
def round (r : Regs) (kw : Nat × Nat) : Regs :=
  let t1 := w32 (r.h + bigSigma1 r.e + ch r.e r.f r.g + kw.1 + kw.2)
  let t2 := w32 (bigSigma0 r.a + maj r.a r.b r.c)
  ⟨w32 (t1 + t2), r.a, r.b, r.c, w32 (r.d + t1), r.e, r.f, r.g⟩

/-- Big-endian assembly of a byte list into one number. -/
def bytesToWord (bs : List Nat) : Nat := bs.foldl (fun acc b => acc * 256 + b) 0

/-- Split a list into consecutive chunks of `n` elements (`n > 0`). -/
def chunksOf (n : Nat) (l : List Nat) : List (List Nat) :=
  if _hn : n = 0 then []
  else if hl : l = [] then []
  else l.take n :: chunksOf n (l.drop n)
termination_by l.length
decreasing_by
  simp only [List.length_drop]
  have := List.length_pos.mpr hl
  omega

/-- Extend the 16 block words by `fuel` more schedule words. -/
def extendLoop : Nat → List Nat → List Nat
  | 0, ws => ws
  | Nat.succ n, ws =>
      let i := ws.length
      extendLoop n (ws ++ [w32 (smallSigma1 (ws.getD (i - 2) 0) + ws.getD (i - 7) 0 +
        smallSigma0 (ws.getD (i - 15) 0) + ws.getD (i - 16) 0)])

/-- The 64-word message schedule of one 64-byte block. -/
def msgSchedule (block : List Nat) : List Nat :=
  extendLoop 48 ((chunksOf 4 block).map bytesToWord)

/-- Compress one 64-byte block into the running digest. -/
def compress (d : Digest) (block : List Nat) : Digest :=
  let ws := msgSchedule block
  let r : Regs := (K.zip ws).foldl round ⟨d.h0, d.h1, d.h2, d.h3, d.h4, d.h5, d.h6, d.h7⟩
  ⟨w32 (d.h0 + r.a), w32 (d.h1 + r.b), w32 (d.h2 + r.c), w32 (d.h3 + r.d),
   w32 (d.h4 + r.e), w32 (d.h5 + r.f), w32 (d.h6 + r.g), w32 (d.h7 + r.h)⟩

/-- SHA-256 message padding: a 0x80 byte, zeros to 56 mod 64, then the
bit length as eight big-endian bytes. -/
def padMsg (msg : List Nat) : List Nat :=
  let L := msg.length * 8
  let zeros := (((56 - ((msg.length + 1) % 64) : Int)) % 64).toNat
  msg ++ 0x80 :: (List.replicate zeros 0 ++
    [(L >>> 56) % 256, (L >>> 48) % 256, (L >>> 40) % 256, (L >>> 32) % 256,
     (L >>> 24) % 256, (L >>> 16) % 256, (L >>> 8) % 256, L % 256])

/-- Serialize one hash word as four big-endian bytes. -/
def wordBytes (w : Nat) : List Nat :=
  [(w >>> 24) % 256, (w >>> 16) % 256, (w >>> 8) % 256, w % 256]

/-- Serialize the digest as 32 bytes. -/
def Digest.bytes (d : Digest) : List Nat :=
  wordBytes d.h0 ++ wordBytes d.h1 ++ wordBytes d.h2 ++ wordBytes d.h3 ++
    wordBytes d.h4 ++ wordBytes d.h5 ++ wordBytes d.h6 ++ wordBytes d.h7

/-- The SHA-256 digest of a byte list (what `crypto/sha256.Sum256` returns). -/
def sha256 (msg : List Nat) : List Nat :=
  (((chunksOf 64 (padMsg msg))).foldl compress initDigest).bytes

/-- Lower-case hex digit for a value below 16. -/
def hexDigitChar (n : Nat) : Char :=
  if n < 10 then Char.ofNat (48 + n) else Char.ofNat (87 + n)

/-- Two-character lower-case hex form of one byte. -/
def byteHex (b : Nat) : List Char := [hexDigitChar (b / 16), hexDigitChar (b % 16)]

/-- Lower-case hex string of a byte list (what `encoding/hex.EncodeToString`
returns). -/
def hexEncode (bs : List Nat) : String :=
  String.mk (bs.foldr (fun b acc => byteHex b ++ acc) [])

/-- Value of one hex digit character, if any. -/
def hexCharVal (c : Char) : Option Nat :=
  if '0' ≤ c ∧ c ≤ '9' then some (c.toNat - 48)
  else if 'a' ≤ c ∧ c ≤ 'f' then some (c.toNat - 87)
  else if 'A' ≤ c ∧ c ≤ 'F' then some (c.toNat - 55)
  else none

/-- Hex decoding of a character list: fails on odd length or a bad digit. -/
def hexDecodeChars : List Char → Option (List Nat)
  | [] => some []
  | [_] => none
  | c1 :: c2 :: rest => do
      let hi ← hexCharVal c1
      let lo ← hexCharVal c2
      let tl ← hexDecodeChars rest
      pure ((hi * 16 + lo) :: tl)

/-- Embedding of `encoding/hex.DecodeString`. -/
def hexDecodeStr (s : String) : Option (List Nat) := hexDecodeChars s.data

end Sha256

/-! ## models: completion records -/

namespace Models

/-- Record of one dungeon-key clear, from `models.CompletedKey`. -/
structure CompletedKey where
  KeyID : Int
  Character : String
  Region : String
  Realm : String
  Dungeon : String
  KeyLevel : Int
  RunTimeMS : Int
  ParTimeMS : Int
  CompletedAt : String
  Source : String
deriving DecidableEq, Repr

/-- ASCII case-folding of one character (the fragment of Go's
`strings.ToLower` exercised by region/realm/name/dungeon strings). -/
def lowerChar (c : Char) : Char :=
  if 'A' ≤ c ∧ c ≤ 'Z' then Char.ofNat (c.toNat + 32) else c

/-- ASCII whitespace trim of both ends (the fragment of Go's
`strings.TrimSpace` exercised here). -/
def trimChars (l : List Char) : List Char :=
  ((l.dropWhile Char.isWhitespace).reverse.dropWhile Char.isWhitespace).reverse

/-- Embedding of `models.normalize`: trim whitespace, then lower-case. -/
def normalize (s : String) : String :=
  String.mk ((trimChars s.data).map lowerChar)

/-- Embedding of Go's `strings.ToLower` alone (used by the store's
character upsert, which lower-cases without trimming). -/
def toLowerStr (s : String) : String := String.mk (s.data.map lowerChar)

/-- UTF-8 encoding of one character, for Go's `[]byte(s)` conversion. -/
def utf8Bytes (c : Char) : List Nat :=
  let n := c.toNat
  if n < 0x80 then [n]
  else if n < 0x800 then
    [0xC0 ||| (n >>> 6), 0x80 ||| (n &&& 0x3F)]
  else if n < 0x10000 then
    [0xE0 ||| (n >>> 12), 0x80 ||| ((n >>> 6) &&& 0x3F), 0x80 ||| (n &&& 0x3F)]
  else
    [0xF0 ||| (n >>> 18), 0x80 ||| ((n >>> 12) &&& 0x3F),
     0x80 ||| ((n >>> 6) &&& 0x3F), 0x80 ||| (n &&& 0x3F)]

/-- Go's `[]byte(s)`: the UTF-8 bytes of a string. -/
def strBytes (s : String) : List Nat := (s.data.map utf8Bytes).foldr (· ++ ·) []

/-- Embedding of Go's `strings.Join(parts, "|")`. -/
def joinBar : List String → String
  | [] => ""
  | [s] => s
  | s :: rest => s ++ "|" ++ joinBar rest

/-- The normalized tuple hashed by `CompletedKey.SyntheticKey`, in source
order: region, realm, character, dungeon, level, run time, par time,
completion time. -/
def CompletedKey.SyntheticKeyParts (k : CompletedKey) : List String :=
  [normalize k.Region, normalize k.Realm, normalize k.Character,
   normalize k.Dungeon, toString k.KeyLevel, toString k.RunTimeMS,
   toString k.ParTimeMS, normalize k.CompletedAt]

/-- The exact string fed to SHA-256 by `CompletedKey.SyntheticKey`. -/
def CompletedKey.SyntheticPreimage (k : CompletedKey) : String :=
  joinBar k.SyntheticKeyParts

/-- Embedding of `CompletedKey.SyntheticKey`: hex-encoded SHA-256 of the
joined normalized tuple. -/
def CompletedKey.SyntheticKey (k : CompletedKey) : String :=
  Sha256.hexEncode (Sha256.sha256 (strBytes k.SyntheticPreimage))

/-- Embedding of `CompletedKey.KeyIDOrSynthetic`. -/
def CompletedKey.KeyIDOrSynthetic (k : CompletedKey) : String :=
  if k.KeyID > 0 then "key:" ++ toString k.KeyID else "syn:" ++ k.SyntheticKey

/-- Two equal-length string lists differing in exactly one position. -/
inductive OneDiff : List String → List String → Prop
  | head : ∀ (s t : String) (rest : List String), s ≠ t →
      OneDiff (s :: rest) (t :: rest)
  | tail : ∀ (s : String) (p q : List String), OneDiff p q →
      OneDiff (s :: p) (s :: q)

/-- Fixed sample record without a native ID, for the synthetic-ID witnesses. -/
def synthKeyBase : CompletedKey :=
  { KeyID := 0, Character := "Arthas", Region := "us", Realm := "illidan",
    Dungeon := "Mists of Tirna Scithe", KeyLevel := 10, RunTimeMS := 1500000,
    ParTimeMS := 1600000, CompletedAt := "2026-02-04T02:00:00Z",
    Source := "raiderio" }

/-- Same record with the region field rewritten in a way its normalization
erases. -/
def synthKeyUpper : CompletedKey := { synthKeyBase with Region := " US " }

/-- Same record with a different key level. -/
def synthKeyLevel : CompletedKey := { synthKeyBase with KeyLevel := 11 }

end Models

/-! ## store: the synthetic numeric key ID

Source: `syntheticKeyID` in the SQLite store. -/

namespace Store

/-- Embedding of `binary.BigEndian.Uint64(raw[:8])`. -/
def bigEndianUint64 (bs : List Nat) : Nat :=
  (bs.take 8).foldl (fun acc b => acc * 256 + b) 0

/-- Embedding of the store's `syntheticKeyID`: decode the hex synthetic key
(falling back to hashing it again if that fails or is too short), take the
first eight bytes big-endian, clear the sign bit, and map 0 to 1. -/
def syntheticKeyID (key : Models.CompletedKey) : Int :=
  let synthetic := key.SyntheticKey
  let raw :=
    match Sha256.hexDecodeStr synthetic with
    | some r => if r.length < 8 then Sha256.sha256 (Models.strBytes synthetic) else r
    | none => Sha256.sha256 (Models.strBytes synthetic)
  let value : Int := ((bigEndianUint64 raw &&& 0x7FFFFFFFFFFFFFFF : Nat) : Int)
  if value = 0 then 1 else value

/-! ### Relational model of the SQLite tables touched by the upsert claims.

Rows mirror the columns of `characters`, `completed_keys` (migration 003:
primary key `(key_id, character_id)`) and `warcraftlogs_links` (unique index
`(key_id, report_code, fight_id, pull_id)`); `inserted_at` defaults are not
modelled. `nextCharId` models the INTEGER PRIMARY KEY allocator. -/

/-- A row of the `characters` table. -/
structure CharRow where
  id : Int
  region : String
  realm : String
  name : String
deriving DecidableEq, Repr

/-- A row of the `completed_keys` table. -/
structure KeyRow where
  keyId : Int
  charId : Int
  dungeon : String
  keyLvl : Int
  runTimeMs : Int
  parTimeMs : Int
  completedAt : String
  source : String
deriving DecidableEq, Repr

/-- A row of the `warcraftlogs_links` table; `fightId`, `pullId` and `url`
are nullable columns. -/
structure LinkRow where
  keyId : Int
  reportCode : String
  fightId : Option Int
  pullId : Option Int
  url : Option String
deriving DecidableEq, Repr

/-- The database state. -/
structure DB where
  chars : List CharRow
  nextCharId : Int
  keys : List KeyRow
  links : List LinkRow
deriving DecidableEq, Repr

/-- A freshly created database. -/
def emptyDB : DB := ⟨[], 1, [], []⟩

/-- Match of one `characters` row against a natural-key triple. -/
def charMatches (region realm name : String) (c : CharRow) : Bool :=
  c.region == region && c.realm == realm && c.name == name

/-- The `UpsertCharacter` query: `INSERT ... ON CONFLICT(region, realm, name)
DO UPDATE SET name = excluded.name RETURNING id` (the update clause only
rewrites `name` with the identical conflicting value, so a conflict returns
the existing row's id and leaves the table unchanged). -/
def upsertCharacter (db : DB) (region realm name : String) : Int × DB :=
  match db.chars.find? (charMatches region realm name) with
  | some c => (c.id, db)
  | none =>
      (db.nextCharId,
        { db with
            chars := db.chars ++ [⟨db.nextCharId, region, realm, name⟩],
            nextCharId := db.nextCharId + 1 })

/-- Match of one `completed_keys` row against a composite identity. -/
def keyIdent (keyId charId : Int) (r : KeyRow) : Bool :=
  r.keyId == keyId && r.charId == charId

/-- The `InsertCompletedKey` query: `INSERT ... ON CONFLICT(key_id,
character_id) DO UPDATE SET` every payload column. -/
def insertCompletedKey (db : DB) (row : KeyRow) : DB :=
  if db.keys.any (keyIdent row.keyId row.charId) then
    { db with
        keys := db.keys.map (fun r => if keyIdent row.keyId row.charId r then row else r) }
  else
    { db with keys := db.keys ++ [row] }

/-- The key id that `SQLiteStore.UpsertCompletedKey` stores: the native id
when positive, else the synthetic id. -/
def derivedKeyID (key : Models.CompletedKey) : Int :=
  if key.KeyID > 0 then key.KeyID else syntheticKeyID key

/-- The `completed_keys` row that `SQLiteStore.UpsertCompletedKey` writes for
a record, once the owning character resolved to `charId`. -/
def keyRowOf (key : Models.CompletedKey) (charId : Int) : KeyRow :=
  ⟨derivedKeyID key, charId, key.Dungeon, key.KeyLevel, key.RunTimeMS,
   key.ParTimeMS, key.CompletedAt, key.Source⟩

/-- Embedding of `SQLiteStore.UpsertCompletedKey`: in one transaction, upsert
the lower-cased owning character, then insert-or-update the key row by its
composite identity. -/
def UpsertCompletedKey (db : DB) (key : Models.CompletedKey) : DB :=
  let res := upsertCharacter db (Models.toLowerStr key.Region)
    (Models.toLowerStr key.Realm) (Models.toLowerStr key.Character)
  insertCompletedKey res.2 (keyRowOf key res.1)

/-- SQLite equality of two nullable columns inside a UNIQUE index: any NULL
is distinct from everything, including another NULL. -/
def nullableEq : Option Int → Option Int → Bool
  | some a, some b => a == b
  | _, _ => false

/-- Conflict of a candidate row `row` with an existing row `r` under the
`UNIQUE(key_id, report_code, fight_id, pull_id)` index. -/
def linkConflict (row r : LinkRow) : Bool :=
  r.keyId == row.keyId && r.reportCode == row.reportCode &&
    nullableEq r.fightId row.fightId && nullableEq r.pullId row.pullId

/-- The `InsertWarcraftLogsLink` query: `INSERT OR IGNORE`. -/
def insertWarcraftLogsLink (db : DB) (row : LinkRow) : DB :=
  if db.links.any (linkConflict row) then db
  else { db with links := db.links ++ [row] }

/-- The store-level link argument (`store.WarcraftLogsLink`): nil-able fight
and pull ids, and a URL whose empty string becomes NULL. -/
structure WarcraftLogsLink where
  KeyID : Int
  ReportCode : String
  FightID : Option Int
  PullID : Option Int
  URL : String
deriving DecidableEq, Repr

/-- The `warcraftlogs_links` row that `SQLiteStore.UpsertWarcraftLogsLink`
passes to the query. -/
def linkRowOf (link : WarcraftLogsLink) : LinkRow :=
  ⟨link.KeyID, link.ReportCode, link.FightID, link.PullID,
   if link.URL = "" then none else some link.URL⟩

/-- Embedding of `SQLiteStore.UpsertWarcraftLogsLink`. -/
def UpsertWarcraftLogsLink (db : DB) (link : WarcraftLogsLink) : DB :=
  insertWarcraftLogsLink db (linkRowOf link)

/-- Row equality on the four indexed columns, for stating the uniqueness
invariant per (key, report, fight, pull). -/
def sameLinkTuple (row r : LinkRow) : Bool :=
  r.keyId == row.keyId && r.reportCode == row.reportCode &&
    r.fightId == row.fightId && r.pullId == row.pullId

/-- The `completed_keys` table never holds two rows with one composite
identity (its primary key). -/
def KeysWF (db : DB) : Prop :=
  db.keys.Pairwise (fun a b => ¬(a.keyId = b.keyId ∧ a.charId = b.charId))

/-- Sample records with a positive native id, sharing their composite
identity but differing in payload, for the upsert witness. -/
def upsertKeyFirst : Models.CompletedKey :=
  { KeyID := 77, Character := "Arthas", Region := "US", Realm := "Illidan",
    Dungeon := "Mists of Tirna Scithe", KeyLevel := 10, RunTimeMS := 1500000,
    ParTimeMS := 1600000, CompletedAt := "2026-02-04T02:00:00Z",
    Source := "raiderio" }

/-- Second upsert of the same identity with refreshed fields. -/
def upsertKeySecond : Models.CompletedKey :=
  { upsertKeyFirst with
      Dungeon := "Mists"
      RunTimeMS := 1490000
      Source := "blizzard" }

/-- Sample link with NULL fight and pull ids. -/
def sampleLinkNull : WarcraftLogsLink :=
  ⟨5, "RPT01", none, none, "https://www.warcraftlogs.com/reports/RPT01"⟩

/-- Sample link with both fight and pull ids present. -/
def sampleLinkFull : WarcraftLogsLink :=
  ⟨5, "RPT01", some 3, some 4, "https://www.warcraftlogs.com/reports/RPT01"⟩

end Store

/-! ## raiderio: the polling scheduler -/

namespace Raiderio

/-- Observable effects of one `pollOnce` cycle: the known-ID set afterwards,
the number of store upserts performed, and the number of match attempts
(`linkToWCL` invocations, with a linker configured). -/
structure PollCounts where
  known : List String
  writes : Nat
  matchAttempts : Nat
deriving DecidableEq, Repr

/-- One iteration of the key loop of `DefaultPoller.pollOnce` in the run
where every store upsert succeeds: drop keys at or before the cutoff, skip
known ids, otherwise upsert, attempt a match, and record the id as known.
`cut` is `afterCutoff(·, cutoff)` for the cycle's fixed epoch cutoff. -/
def processKey (cut : String → Bool) (st : PollCounts)
    (key : Models.CompletedKey) : PollCounts :=
  if cut key.CompletedAt = false then st
  else if st.known.contains key.KeyIDOrSynthetic then st
  else ⟨key.KeyIDOrSynthetic :: st.known, st.writes + 1, st.matchAttempts + 1⟩

/-- The key loop of `DefaultPoller.pollOnce` over a fetched payload. -/
def pollOnce (cut : String → Bool) (known : List String)
    (keys : List Models.CompletedKey) : PollCounts :=
  keys.foldl (processKey cut) ⟨known, 0, 0⟩

/-- Phases of one per-character polling task, as the scheduler's suspension
points: sleeping between cycles, waiting on the semaphore, fetching while
holding a slot, and processing the payload while still holding it. -/
inductive Phase
  | sleeping
  | waiting
  | fetching
  | processing
deriving DecidableEq, Repr

/-- A task holds a semaphore slot from the successful send until the
deferred receive. -/
def holdsSem : Phase → Bool
  | Phase.fetching => true
  | Phase.processing => true
  | _ => false

/-- A task is inside `FetchWeeklyRuns`. -/
def inFetch : Phase → Bool
  | Phase.fetching => true
  | _ => false

/-- Interleaving semantics of the polling tasks (`DefaultPoller.Start` plus
`pollOnce`): one task moves per step; sending into the buffered semaphore
channel of capacity `cap` is only enabled while fewer than `cap` tasks hold
a slot, and the slot is released when the cycle finishes. -/
inductive Step (cap : Nat) : List Phase → List Phase → Prop
  | wake (l r : List Phase) :
      Step cap (l ++ Phase.sleeping :: r) (l ++ Phase.waiting :: r)
  | acquire (l r : List Phase)
      (hroom : (l ++ Phase.waiting :: r).countP holdsSem < cap) :
      Step cap (l ++ Phase.waiting :: r) (l ++ Phase.fetching :: r)
  | fetchDone (l r : List Phase) :
      Step cap (l ++ Phase.fetching :: r) (l ++ Phase.processing :: r)
  | release (l r : List Phase) :
      Step cap (l ++ Phase.processing :: r) (l ++ Phase.sleeping :: r)

/-- States reachable from the initial configuration of `n` tasks, all
sleeping through their stagger delay. -/
def Reachable (cap n : Nat) (s : List Phase) : Prop :=
  Relation.ReflTransGen (Step cap) (List.replicate n Phase.sleeping) s

end Raiderio

/-! ## warcraftlogs: the per-fight matcher

Source: `matchKeyToRuns` and `calculateMatchConfidence` in
`warcraftlogs/linker.go`. Timestamps (`keyTime`, `run.CompletedAt`) and the
match window are `time.Duration`-style integers; the float64 score is
modelled exactly in `ℚ`. -/

namespace Warcraftlogs

/-- One candidate fight fetched from the log source (`MythicPlusRun`). -/
structure MythicPlusRun where
  ReportCode : String
  FightID : Int
  Dungeon : String
  EncounterID : Int
  KeystoneLevel : Int
  KeystoneTime : Int
  KeystoneBonus : Int
  Rating : ℚ
  CompletedAt : Int
  Kill : Bool
deriving DecidableEq, Repr

/-- A successful pairing of a key and a run (`MatchResult`). -/
structure MatchResult where
  Key : Models.CompletedKey
  Run : MythicPlusRun
  Confidence : ℚ
deriving DecidableEq, Repr

/-- Embedding of `calculateMatchConfidence`: time-proximity score (40%),
conditional run-time score (40%), fixed exact-level baseline (20%). -/
def calculateMatchConfidence (key : Models.CompletedKey) (run : MythicPlusRun)
    (timeDiff window : Int) : ℚ :=
  let timeScore : ℚ := 1 - (timeDiff : ℚ) / (window : ℚ)
  let c1 : ℚ := 0 + timeScore * 0.4
  let c2 : ℚ :=
    if run.KeystoneTime > 0 ∧ key.RunTimeMS > 0 then
      let runTimeDiff : ℚ := |((run.KeystoneTime - key.RunTimeMS : Int) : ℚ)|
      if runTimeDiff < 5000 then c1 + (1 - runTimeDiff / 5000) * 0.4 else c1
    else c1
  c2 + 0.2

/-- Accumulator of the candidate loop in `matchKeyToRuns`: the best run seen
so far (`best`, a nil pointer initially) and its confidence (initially 0.0). -/
def startAcc : Option MythicPlusRun × ℚ := (none, 0)

/-- One iteration of the candidate loop in `matchKeyToRuns`: the guard chain
(`continue` statements) followed by the best-so-far update. -/
def considerRun (key : Models.CompletedKey) (keyTime : Int)
    (matchFn : String → String → Bool) (window : Int)
    (acc : Option MythicPlusRun × ℚ) (run : MythicPlusRun) :
    Option MythicPlusRun × ℚ :=
  if run.KeystoneLevel = 0 then acc
  else if run.Kill = false ∧ run.KeystoneTime = 0 then acc
  else if run.KeystoneLevel ≠ key.KeyLevel then acc
  else if matchFn key.Dungeon run.Dungeon = false then acc
  else
    let timeDiff := |keyTime - run.CompletedAt|
    if timeDiff > window then acc
    else
      let confidence := calculateMatchConfidence key run timeDiff window
      if confidence > acc.2 then (some run, confidence) else acc

/-- The candidate loop of `matchKeyToRuns` over the whole run list. -/
def matchFold (key : Models.CompletedKey) (keyTime : Int)
    (matchFn : String → String → Bool) (window : Int)
    (runs : List MythicPlusRun) : Option MythicPlusRun × ℚ :=
  runs.foldl (considerRun key keyTime matchFn window) startAcc

/-- Embedding of `matchKeyToRuns`: fold the candidate loop over the runs,
starting from no best candidate and best confidence `0.0`; return nil when
no candidate survived the filters. -/
def matchKeyToRuns (key : Models.CompletedKey) (keyTime : Int)
    (runs : List MythicPlusRun) (matchFn : String → String → Bool)
    (window : Int) : Option MatchResult :=
  match matchFold key keyTime matchFn window runs with
  | (none, _) => none
  | (some best, bestConfidence) => some ⟨key, best, bestConfidence⟩

/-- Spec-side scoring formula, written from the spec's words: 0.4 times the
linear time decay, plus 0.4 times the run-time closeness only when both
elapsed times are known and within 5000 ms, plus the 0.2 baseline. -/
def specConfidence (runTimeMS keystoneTime : Int) (timeDiff window : Int) : ℚ :=
  0.4 * (1 - (timeDiff : ℚ) / (window : ℚ)) +
    (if keystoneTime > 0 ∧ runTimeMS > 0 ∧ |keystoneTime - runTimeMS| < 5000 then
      0.4 * (1 - ((|keystoneTime - runTimeMS| : Int) : ℚ) / 5000)
    else 0) +
    0.2

/-- The filter chain of `matchKeyToRuns`, as a predicate on one candidate:
nonzero keystone level, completed, exact level match, dungeon-name match,
timestamp within the window. -/
def EligibleRun (key : Models.CompletedKey) (keyTime : Int)
    (matchFn : String → String → Bool) (window : Int)
    (run : MythicPlusRun) : Prop :=
  run.KeystoneLevel ≠ 0 ∧ (run.Kill = true ∨ run.KeystoneTime ≠ 0) ∧
  run.KeystoneLevel = key.KeyLevel ∧ matchFn key.Dungeon run.Dungeon = true ∧
  |keyTime - run.CompletedAt| ≤ window

instance (key : Models.CompletedKey) (keyTime : Int)
    (matchFn : String → String → Bool) (window : Int) (run : MythicPlusRun) :
    Decidable (EligibleRun key keyTime matchFn window run) := by
  unfold EligibleRun; infer_instance

/-- The score a candidate receives in `matchKeyToRuns` once it passes the
filter chain. -/
def runConfidence (key : Models.CompletedKey) (keyTime window : Int)
    (run : MythicPlusRun) : ℚ :=
  calculateMatchConfidence key run (|keyTime - run.CompletedAt|) window

/-- Fixed sample key used to witness the matcher theorems on concrete input. -/
def sampleKey : Models.CompletedKey :=
  { KeyID := 1001, Character := "arthas", Region := "us", Realm := "illidan",
    Dungeon := "mists", KeyLevel := 10, RunTimeMS := 1500000,
    ParTimeMS := 1600000, CompletedAt := "2026-02-04T02:00:00Z",
    Source := "raiderio" }

/-- Fixed sample run perfectly aligned with `sampleKey`. -/
def sampleRun : MythicPlusRun :=
  { ReportCode := "ABC123", FightID := 7, Dungeon := "mists",
    EncounterID := 0, KeystoneLevel := 10, KeystoneTime := 1500000,
    KeystoneBonus := 1, Rating := 0, CompletedAt := 0, Kill := true }

/-- A second sample run identical to `sampleRun` except for the report code,
so it ties with `sampleRun` on confidence. -/
def sampleRunTwin : MythicPlusRun :=
  { sampleRun with ReportCode := "XYZ789" }

/-- Sample dungeon-name matcher used by the concrete witnesses. -/
def sampleMatchFn : String → String → Bool := fun a b => a == b

/-- The match result the matcher produces on the sample inputs. -/
def sampleResult : MatchResult := ⟨sampleKey, sampleRun, 1⟩

end Warcraftlogs

end CelestialOrrey

namespace CelestialOrrey

/-! # Theorems -/

/-- C1: for every input time, `WeeklyResetIn` returns a Tuesday 07:00 local
boundary that is at or before the input and is the most recent such boundary;
in particular Tuesday 06:59 maps to the prior week's Tuesday 07:00, Tuesday
07:00 maps to itself, and Wednesday noon maps to that week's Tuesday 07:00. -/
theorem C1_weekly_reset_correct (t : Int) :
    Timeutil.IsTuesdaySeven (Timeutil.WeeklyResetIn t) ∧
    Timeutil.WeeklyResetIn t ≤ t ∧
    (∀ b : Int, Timeutil.IsTuesdaySeven b → b ≤ t → b ≤ Timeutil.WeeklyResetIn t) ∧
    Timeutil.WeeklyResetIn Timeutil.tueSixFiftyNine = Timeutil.tueSeven - 7 * 1440 ∧
    Timeutil.WeeklyResetIn Timeutil.tueSeven = Timeutil.tueSeven ∧
    Timeutil.WeeklyResetIn Timeutil.wedNoon = Timeutil.tueSeven := by
  refine ⟨⟨?_, ?_⟩, ?_, ?_, ?_, ?_, ?_⟩
  · simp only [Timeutil.WeeklyResetIn, Timeutil.weekday, Timeutil.startOfDay,
      Timeutil.WeeklyResetHour]
    split <;> omega
  · simp only [Timeutil.WeeklyResetIn, Timeutil.weekday, Timeutil.startOfDay,
      Timeutil.WeeklyResetHour]
    split <;> omega
  · simp only [Timeutil.WeeklyResetIn, Timeutil.weekday, Timeutil.startOfDay,
      Timeutil.WeeklyResetHour]
    split <;> omega
  · intro b hb hbt
    have h1 := hb.1
    have h2 := hb.2
    simp only [Timeutil.weekday] at h1
    simp only [Timeutil.WeeklyResetIn, Timeutil.weekday, Timeutil.startOfDay,
      Timeutil.WeeklyResetHour]
    split <;> omega
  · decide
  · decide
  · decide

namespace Warcraftlogs

/-- C3: on a candidate that passed all filters, `calculateMatchConfidence` is
exactly the spec formula: 0.4 times the linear time decay over the window,
plus 0.4 times the run-time closeness when both elapsed times are positive
and differ by less than 5000 ms (else nothing), plus the 0.2 baseline. -/
theorem C3_confidence_formula (key : Models.CompletedKey) (run : MythicPlusRun)
    (timeDiff window : Int) (h0 : 0 ≤ timeDiff) (h1 : timeDiff ≤ window) :
    calculateMatchConfidence key run timeDiff window =
      specConfidence key.RunTimeMS run.KeystoneTime timeDiff window := by
  have hcast : ((|run.KeystoneTime - key.RunTimeMS| : Int) : ℚ) =
      |((run.KeystoneTime - key.RunTimeMS : Int) : ℚ)| := by push_cast; ring
  simp only [calculateMatchConfidence, specConfidence]
  by_cases hk : run.KeystoneTime > 0 ∧ key.RunTimeMS > 0
  · by_cases hd : |run.KeystoneTime - key.RunTimeMS| < (5000 : Int)
    · have hdq : |((run.KeystoneTime - key.RunTimeMS : Int) : ℚ)| < 5000 := by
        rw [← hcast]; exact_mod_cast hd
      rw [if_pos hk, if_pos hdq, if_pos ⟨hk.1, hk.2, hd⟩, hcast]
      ring
    · have hdq : ¬ |((run.KeystoneTime - key.RunTimeMS : Int) : ℚ)| < 5000 := by
        rw [← hcast]
        intro hcon
        exact hd (by exact_mod_cast hcon)
      rw [if_pos hk, if_neg hdq, if_neg (fun hc => hd hc.2.2)]
      ring
  · rw [if_neg hk, if_neg (fun hc => hk ⟨hc.1, hc.2.1⟩)]
    ring

/-- Witness for C3 at the perfectly aligned sample inputs. -/
theorem C3_confidence_formula_witness :
    ((0:Int) ≤ 0 ∧ (0:Int) ≤ 60) ∧
    calculateMatchConfidence sampleKey sampleRun 0 60 =
      specConfidence sampleKey.RunTimeMS sampleRun.KeystoneTime 0 60 :=
  ⟨⟨by decide, by decide⟩,
    C3_confidence_formula sampleKey sampleRun 0 60 (by decide) (by decide)⟩

/-- The guard chain of the candidate loop, restated through the eligibility
predicate and the scoring function. -/
theorem considerRun_eq (key : Models.CompletedKey) (keyTime : Int)
    (matchFn : String → String → Bool) (window : Int)
    (acc : Option MythicPlusRun × ℚ) (run : MythicPlusRun) :
    considerRun key keyTime matchFn window acc run =
      if EligibleRun key keyTime matchFn window run ∧
          runConfidence key keyTime window run > acc.2 then
        (some run, runConfidence key keyTime window run)
      else acc := by
  by_cases g1 : run.KeystoneLevel = 0
  · simp [considerRun, EligibleRun, g1]
  · by_cases g2 : run.Kill = false ∧ run.KeystoneTime = 0
    · simp [considerRun, EligibleRun, g1, g2.1, g2.2]
    · by_cases g3 : run.KeystoneLevel = key.KeyLevel
      · by_cases g4 : matchFn key.Dungeon run.Dungeon = false
        · simp [considerRun, EligibleRun, g1, g2, g3, g4]
        · by_cases g5 : |keyTime - run.CompletedAt| ≤ window
          · have hkill : run.Kill = true ∨ run.KeystoneTime ≠ 0 := by
              rcases Bool.eq_false_or_eq_true run.Kill with ht | hf
              · exact Or.inl ht
              · exact Or.inr (fun hz => g2 ⟨hf, hz⟩)
            have g5' : ¬ |keyTime - run.CompletedAt| > window := not_lt.mpr g5
            have g1' : ¬ key.KeyLevel = 0 := g3 ▸ g1
            simp [considerRun, EligibleRun, runConfidence, g1, g1', g2, g3, g4,
              g5, g5', hkill, Bool.not_eq_false]
          · simp [considerRun, EligibleRun, g1, g2, g3, g4, not_le.mp g5, g5]
      · simp [considerRun, EligibleRun, g1, g2, g3]

/-- A candidate passing the filter chain scores between 0.2 and 1. -/
theorem eligible_conf_bounds (key : Models.CompletedKey) (keyTime : Int)
    (matchFn : String → String → Bool) (window : Int) (run : MythicPlusRun)
    (he : EligibleRun key keyTime matchFn window run) (hw : (0:Int) < window) :
    (0.2 : ℚ) ≤ runConfidence key keyTime window run ∧
      runConfidence key keyTime window run ≤ 1 := by
  obtain ⟨-, -, -, -, hle⟩ := he
  have h0 : (0:Int) ≤ |keyTime - run.CompletedAt| := abs_nonneg _
  have hq0 : (0:ℚ) ≤ ((|keyTime - run.CompletedAt| : Int) : ℚ) / ((window : Int) : ℚ) := by
    apply div_nonneg
    · exact_mod_cast h0
    · exact_mod_cast hw.le
  have hq1 : ((|keyTime - run.CompletedAt| : Int) : ℚ) / ((window : Int) : ℚ) ≤ 1 := by
    rw [div_le_one (by exact_mod_cast hw)]
    exact_mod_cast hle
  simp only [runConfidence, calculateMatchConfidence]
  split_ifs with hpos hlt
  · have ha0 : (0:ℚ) ≤ |((run.KeystoneTime - key.RunTimeMS : Int) : ℚ)| := abs_nonneg _
    have ha1 : |((run.KeystoneTime - key.RunTimeMS : Int) : ℚ)| / 5000 < 1 := by
      rw [div_lt_one (by norm_num)]
      exact hlt
    have ha2 : (0:ℚ) ≤ |((run.KeystoneTime - key.RunTimeMS : Int) : ℚ)| / 5000 := by
      apply div_nonneg ha0
      norm_num
    constructor <;> nlinarith
  · constructor <;> nlinarith
  · constructor <;> nlinarith

/-- Characterization of the candidate loop: when it ends with no best run,
nothing was eligible and the best confidence is still 0; when it ends with a
best run `b`, then `b` is eligible, carries its own score, strictly beats
every eligible candidate before it, and is at least every eligible candidate
after it. -/
theorem matchFold_spec (key : Models.CompletedKey) (keyTime : Int)
    (matchFn : String → String → Bool) (window : Int) (hw : (0:Int) < window)
    (runs : List MythicPlusRun) :
    ((matchFold key keyTime matchFn window runs).1 = none →
      (matchFold key keyTime matchFn window runs).2 = 0 ∧
      ∀ r ∈ runs, ¬ EligibleRun key keyTime matchFn window r) ∧
    (∀ b, (matchFold key keyTime matchFn window runs).1 = some b →
      ∃ l₁ l₂, runs = l₁ ++ b :: l₂ ∧
        EligibleRun key keyTime matchFn window b ∧
        (matchFold key keyTime matchFn window runs).2 =
          runConfidence key keyTime window b ∧
        (∀ r ∈ l₁, EligibleRun key keyTime matchFn window r →
          runConfidence key keyTime window r < runConfidence key keyTime window b) ∧
        (∀ r ∈ l₂, EligibleRun key keyTime matchFn window r →
          runConfidence key keyTime window r ≤ runConfidence key keyTime window b)) := by
  induction runs using List.reverseRecOn with
  | nil =>
    constructor
    · intro _
      exact ⟨rfl, by simp⟩
    · intro b hb
      simp [matchFold, startAcc] at hb
  | append_singleton l a ih =>
    have hstep : matchFold key keyTime matchFn window (l ++ [a]) =
        considerRun key keyTime matchFn window
          (matchFold key keyTime matchFn window l) a := by
      simp [matchFold, List.foldl_append]
    -- every eligible run in the processed prefix scores at most the
    -- accumulator's confidence
    have hpref : ∀ r ∈ l, EligibleRun key keyTime matchFn window r →
        runConfidence key keyTime window r ≤
          (matchFold key keyTime matchFn window l).2 := by
      intro r hr he
      cases hacc : (matchFold key keyTime matchFn window l).1 with
      | none =>
        exact absurd he ((ih.1 hacc).2 r hr)
      | some b =>
        obtain ⟨l₁, l₂, hdecomp, -, hconf, hlt, hle⟩ := ih.2 b hacc
        rw [hconf]
        rw [hdecomp] at hr
        rcases List.mem_append.mp hr with h₁ | h₂
        · exact (hlt r h₁ he).le
        · rcases List.mem_cons.mp h₂ with rfl | h₃
          · exact le_rfl
          · exact hle r h₃ he
    rw [hstep, considerRun_eq]
    split_ifs with htake
    · -- the last candidate replaces the best
      constructor
      · intro hnone
        simp at hnone
      · intro b hb
        have hba : a = b := by simpa using hb
        subst hba
        refine ⟨l, [], by simp, htake.1, by simp, ?_, by simp⟩
        intro r hr he
        exact lt_of_le_of_lt (hpref r hr he) htake.2
    · -- the accumulator is kept
      constructor
      · intro hnone
        obtain ⟨hz, hnel⟩ := ih.1 hnone
        refine ⟨hz, ?_⟩
        intro r hr
        rcases List.mem_append.mp hr with h₁ | h₂
        · exact hnel r h₁
        · have hra : r = a := by simpa using h₂
          subst hra
          intro he
          apply htake
          refine ⟨he, ?_⟩
          rw [hz]
          have := (eligible_conf_bounds key keyTime matchFn window r he hw).1
          linarith
      · intro b hb
        obtain ⟨l₁, l₂, hdecomp, helig, hconf, hlt, hle⟩ := ih.2 b hb
        refine ⟨l₁, l₂ ++ [a], by rw [hdecomp]; simp, helig, hconf, hlt, ?_⟩
        intro r hr he
        rcases List.mem_append.mp hr with h₁ | h₂
        · exact hle r h₁ he
        · have hra : r = a := by simpa using h₂
          subst hra
          by_contra hcon
          apply htake
          refine ⟨he, ?_⟩
          rw [hconf]
          exact lt_of_not_le hcon

/-- Unpacking a successful `matchKeyToRuns` into the state of its loop. -/
theorem matchKeyToRuns_some (key : Models.CompletedKey) (keyTime : Int)
    (runs : List MythicPlusRun) (matchFn : String → String → Bool)
    (window : Int) (m : MatchResult)
    (h : matchKeyToRuns key keyTime runs matchFn window = some m) :
    (matchFold key keyTime matchFn window runs).1 = some m.Run ∧
      (matchFold key keyTime matchFn window runs).2 = m.Confidence ∧
      m.Key = key := by
  unfold matchKeyToRuns at h
  rcases hF : matchFold key keyTime matchFn window runs with ⟨fst, snd⟩
  rw [hF] at h
  cases fst with
  | none => simp at h
  | some best =>
    simp only [Option.some.injEq] at h
    subst h
    exact ⟨rfl, rfl, rfl⟩

/-- C4: whenever `matchKeyToRuns` returns a result, its confidence is in
[0,1] and the matched run both came from the candidate list and has exactly
the key's keystone level, so a level-mismatched candidate is never returned. -/
theorem C4_match_bounds (key : Models.CompletedKey) (keyTime : Int)
    (runs : List MythicPlusRun) (matchFn : String → String → Bool)
    (window : Int) (m : MatchResult) (hw : (0:Int) < window)
    (h : matchKeyToRuns key keyTime runs matchFn window = some m) :
    (0 ≤ m.Confidence ∧ m.Confidence ≤ 1) ∧
      m.Run.KeystoneLevel = key.KeyLevel ∧ m.Run ∈ runs := by
  obtain ⟨h1, h2, -⟩ := matchKeyToRuns_some key keyTime runs matchFn window m h
  obtain ⟨l₁, l₂, hdecomp, helig, hconf, -, -⟩ :=
    (matchFold_spec key keyTime matchFn window hw runs).2 m.Run h1
  have hb := eligible_conf_bounds key keyTime matchFn window m.Run helig hw
  rw [h2] at hconf
  constructor
  · constructor
    · rw [hconf]; linarith [hb.1]
    · rw [hconf]; exact hb.2
  · refine ⟨helig.2.2.1, ?_⟩
    rw [hdecomp]
    simp

/-- Concrete evaluation of the matcher on the one-candidate sample input. -/
theorem sampleMatch_eval :
    matchKeyToRuns sampleKey 0 [sampleRun] sampleMatchFn 60 = some sampleResult := by
  have hstep : considerRun sampleKey 0 sampleMatchFn 60 startAcc sampleRun =
      (some sampleRun, 1) := by
    norm_num [considerRun, startAcc, sampleKey, sampleRun, sampleMatchFn,
      calculateMatchConfidence]
  simp [matchKeyToRuns, matchFold, hstep, sampleResult]

/-- Concrete evaluation of the matcher on the two-candidate tie input. -/
theorem sampleMatchTie_eval :
    matchKeyToRuns sampleKey 0 [sampleRun, sampleRunTwin] sampleMatchFn 60 =
      some sampleResult := by
  have hstep : considerRun sampleKey 0 sampleMatchFn 60 startAcc sampleRun =
      (some sampleRun, 1) := by
    norm_num [considerRun, startAcc, sampleKey, sampleRun, sampleMatchFn,
      calculateMatchConfidence]
  have hstep2 : considerRun sampleKey 0 sampleMatchFn 60 (some sampleRun, 1)
      sampleRunTwin = (some sampleRun, 1) := by
    norm_num [considerRun, sampleKey, sampleRun, sampleRunTwin, sampleMatchFn,
      calculateMatchConfidence]
  simp [matchKeyToRuns, matchFold, hstep, hstep2, sampleResult]

/-- Witness for C4 on the perfectly aligned sample inputs. -/
theorem C4_match_bounds_witness :
    ((0:Int) < 60 ∧
      matchKeyToRuns sampleKey 0 [sampleRun] sampleMatchFn 60 =
        some sampleResult) ∧
    ((0 ≤ sampleResult.Confidence ∧ sampleResult.Confidence ≤ 1) ∧
      sampleResult.Run.KeystoneLevel = sampleKey.KeyLevel ∧
      sampleResult.Run ∈ [sampleRun]) :=
  ⟨⟨by decide, sampleMatch_eval⟩,
    C4_match_bounds sampleKey 0 [sampleRun] sampleMatchFn 60 sampleResult
      (by decide) sampleMatch_eval⟩

/-- C8: whenever `matchKeyToRuns` returns a result, the matched run is an
eligible candidate carrying its own score, every eligible candidate scores at
most that, and every eligible candidate appearing earlier in the input order
scores strictly less — so the first-encountered candidate wins ties. -/
theorem C8_first_highest_wins (key : Models.CompletedKey) (keyTime : Int)
    (runs : List MythicPlusRun) (matchFn : String → String → Bool)
    (window : Int) (m : MatchResult) (hw : (0:Int) < window)
    (h : matchKeyToRuns key keyTime runs matchFn window = some m) :
    ∃ l₁ l₂, runs = l₁ ++ m.Run :: l₂ ∧
      EligibleRun key keyTime matchFn window m.Run ∧
      m.Confidence = runConfidence key keyTime window m.Run ∧
      (∀ r ∈ runs, EligibleRun key keyTime matchFn window r →
        runConfidence key keyTime window r ≤ m.Confidence) ∧
      (∀ r ∈ l₁, EligibleRun key keyTime matchFn window r →
        runConfidence key keyTime window r < m.Confidence) := by
  obtain ⟨h1, h2, -⟩ := matchKeyToRuns_some key keyTime runs matchFn window m h
  obtain ⟨l₁, l₂, hdecomp, helig, hconf, hlt, hle⟩ :=
    (matchFold_spec key keyTime matchFn window hw runs).2 m.Run h1
  rw [h2] at hconf
  refine ⟨l₁, l₂, hdecomp, helig, hconf, ?_, ?_⟩
  · intro r hr he
    rw [hconf]
    rw [hdecomp] at hr
    rcases List.mem_append.mp hr with hm | hm
    · exact (hlt r hm he).le
    · rcases List.mem_cons.mp hm with rfl | hm₂
      · exact le_rfl
      · exact hle r hm₂ he
  · intro r hr he
    rw [hconf]
    exact hlt r hr he

/-- Witness for C8 on a two-candidate tie: the twin run has the identical
score but the first-listed run is returned. -/
theorem C8_first_highest_wins_witness :
    ((0:Int) < 60 ∧
      matchKeyToRuns sampleKey 0 [sampleRun, sampleRunTwin] sampleMatchFn 60 =
        some sampleResult) ∧
    (∃ l₁ l₂, [sampleRun, sampleRunTwin] = l₁ ++ sampleResult.Run :: l₂ ∧
      EligibleRun sampleKey 0 sampleMatchFn 60 sampleResult.Run ∧
      sampleResult.Confidence = runConfidence sampleKey 0 60 sampleResult.Run ∧
      (∀ r ∈ [sampleRun, sampleRunTwin],
        EligibleRun sampleKey 0 sampleMatchFn 60 r →
        runConfidence sampleKey 0 60 r ≤ sampleResult.Confidence) ∧
      (∀ r ∈ l₁, EligibleRun sampleKey 0 sampleMatchFn 60 r →
        runConfidence sampleKey 0 60 r < sampleResult.Confidence)) :=
  ⟨⟨by decide, sampleMatchTie_eval⟩,
    C8_first_highest_wins sampleKey 0 [sampleRun, sampleRunTwin] sampleMatchFn
      60 sampleResult (by decide) sampleMatchTie_eval⟩

end Warcraftlogs

namespace Models

/-- String append cancels on the right. -/
theorem string_append_cancel_right {a b c : String} (h : a ++ c = b ++ c) :
    a = b := by
  have hd : a.data ++ c.data = b.data ++ c.data := by
    rw [← String.data_append, ← String.data_append, h]
  have := List.append_cancel_right hd
  cases a; cases b
  exact congrArg String.mk this

/-- String append cancels on the left. -/
theorem string_append_cancel_left {a b c : String} (h : a ++ b = a ++ c) :
    b = c := by
  have hd : a.data ++ b.data = a.data ++ c.data := by
    rw [← String.data_append, ← String.data_append, h]
  have := List.append_cancel_left hd
  cases b; cases c
  exact congrArg String.mk this

/-- Lists related by `OneDiff` are both nonempty. -/
theorem OneDiff.ne_nil {p q : List String} (h : OneDiff p q) :
    p ≠ [] ∧ q ≠ [] := by
  cases h <;> exact ⟨by simp, by simp⟩

/-- Joining with a separator distinguishes lists that differ in exactly one
component. -/
theorem joinBar_ne_of_oneDiff {p q : List String} (h : OneDiff p q) :
    joinBar p ≠ joinBar q := by
  induction h with
  | head s t rest hne =>
    cases rest with
    | nil => simpa [joinBar] using hne
    | cons x xs =>
      intro hcon
      simp only [joinBar] at hcon
      exact hne (string_append_cancel_right (string_append_cancel_right hcon))
  | tail s p q hpq ih =>
    obtain ⟨hp, hq⟩ := hpq.ne_nil
    cases p with
    | nil => exact absurd rfl hp
    | cons x xs =>
      cases q with
      | nil => exact absurd rfl hq
      | cons y ys =>
        intro hcon
        simp only [joinBar] at hcon
        exact ih (string_append_cancel_left hcon)

/-- C2 as amended: the synthetic ID is a pure function of the normalized
field tuple; and changing a single field to a value with a different
normalized form changes the hashed preimage string (hence the ID, barring a
SHA-256 collision). -/
theorem C2_synthetic_id_normalized (k1 k2 : CompletedKey) :
    (k1.SyntheticKeyParts = k2.SyntheticKeyParts →
      k1.SyntheticKey = k2.SyntheticKey) ∧
    (OneDiff k1.SyntheticKeyParts k2.SyntheticKeyParts →
      k1.SyntheticPreimage ≠ k2.SyntheticPreimage) := by
  constructor
  · intro h
    simp only [CompletedKey.SyntheticKey, CompletedKey.SyntheticPreimage]
    rw [h]
  · intro h
    simp only [CompletedKey.SyntheticPreimage]
    exact joinBar_ne_of_oneDiff h

/-- C2 counterexample to the claim as frozen: rewriting the region field of
a record (a single-field change) can leave the synthetic ID unchanged,
because the tuple is normalized (trimmed and case-folded) before hashing. -/
theorem C2_counterexample_single_field_change :
    synthKeyBase.Region ≠ synthKeyUpper.Region ∧
    synthKeyBase.KeyID = synthKeyUpper.KeyID ∧
    synthKeyBase.Character = synthKeyUpper.Character ∧
    synthKeyBase.Realm = synthKeyUpper.Realm ∧
    synthKeyBase.Dungeon = synthKeyUpper.Dungeon ∧
    synthKeyBase.KeyLevel = synthKeyUpper.KeyLevel ∧
    synthKeyBase.RunTimeMS = synthKeyUpper.RunTimeMS ∧
    synthKeyBase.ParTimeMS = synthKeyUpper.ParTimeMS ∧
    synthKeyBase.CompletedAt = synthKeyUpper.CompletedAt ∧
    synthKeyBase.Source = synthKeyUpper.Source ∧
    synthKeyBase.SyntheticKey = synthKeyUpper.SyntheticKey := by
  refine ⟨by decide, rfl, rfl, rfl, rfl, rfl, rfl, rfl, rfl, rfl, ?_⟩
  have hp : synthKeyBase.SyntheticKeyParts = synthKeyUpper.SyntheticKeyParts := by
    decide
  simp only [CompletedKey.SyntheticKey, CompletedKey.SyntheticPreimage]
  rw [hp]

/-- The sample record's normalized tuple, evaluated. -/
theorem synthKeyBase_parts_eval :
    synthKeyBase.SyntheticKeyParts =
      ["us", "illidan", "arthas", "mists of tirna scithe", "10", "1500000",
       "1600000", "2026-02-04t02:00:00z"] := by decide

/-- The level-changed sample record's normalized tuple, evaluated. -/
theorem synthKeyLevel_parts_eval :
    synthKeyLevel.SyntheticKeyParts =
      ["us", "illidan", "arthas", "mists of tirna scithe", "11", "1500000",
       "1600000", "2026-02-04t02:00:00z"] := by decide

/-- Witness for the amended C2 at concrete records: a whitespace/case-only
region change keeps the ID, and a key-level change alters the preimage. -/
theorem C2_synthetic_id_normalized_witness :
    (synthKeyBase.SyntheticKeyParts = synthKeyUpper.SyntheticKeyParts ∧
      synthKeyBase.SyntheticKey = synthKeyUpper.SyntheticKey) ∧
    (OneDiff synthKeyBase.SyntheticKeyParts synthKeyLevel.SyntheticKeyParts ∧
      synthKeyBase.SyntheticPreimage ≠ synthKeyLevel.SyntheticPreimage) := by
  have hparts : synthKeyBase.SyntheticKeyParts = synthKeyUpper.SyntheticKeyParts := by
    decide
  have hdiff : OneDiff synthKeyBase.SyntheticKeyParts synthKeyLevel.SyntheticKeyParts := by
    rw [synthKeyBase_parts_eval, synthKeyLevel_parts_eval]
    exact .tail _ _ _ (.tail _ _ _ (.tail _ _ _ (.tail _ _ _
      (.head _ _ _ (by decide)))))
  exact ⟨⟨hparts, (C2_synthetic_id_normalized synthKeyBase synthKeyUpper).1 hparts⟩,
    ⟨hdiff, (C2_synthetic_id_normalized synthKeyBase synthKeyLevel).2 hdiff⟩⟩

end Models

namespace Store

/-- C10: for a record without a positive native ID, the store's synthetic
numeric key ID lies in [1, 2^63 - 1]: never zero, never negative, so
persisted rows cannot collide with the zero sentinel. -/
theorem C10_syntheticKeyID_range (key : Models.CompletedKey)
    (h : key.KeyID ≤ 0) :
    1 ≤ syntheticKeyID key ∧ syntheticKeyID key ≤ 2 ^ 63 - 1 := by
  clear h
  simp only [syntheticKeyID]
  set n : Nat := bigEndianUint64
    (match Sha256.hexDecodeStr key.SyntheticKey with
      | some r => if r.length < 8 then Sha256.sha256 (Models.strBytes key.SyntheticKey) else r
      | none => Sha256.sha256 (Models.strBytes key.SyntheticKey)) &&&
    0x7FFFFFFFFFFFFFFF with hn
  have hlt : n < 2 ^ 63 := by
    rw [hn]
    exact Nat.and_lt_two_pow _ (by norm_num)
  split_ifs with h0
  · norm_num
  · have hpos : 0 < n := by
      rcases Nat.eq_zero_or_pos n with hz | hp
      · exact absurd (by exact_mod_cast congrArg (fun m : Nat => (m : Int)) hz) h0
      · exact hp
    constructor
    · exact_mod_cast hpos
    · have : (n : Int) < 2 ^ 63 := by exact_mod_cast hlt
      omega

/-- Witness for C10 at the sample record with key ID zero. -/
theorem C10_syntheticKeyID_range_witness :
    Models.synthKeyBase.KeyID ≤ 0 ∧
    (1 ≤ syntheticKeyID Models.synthKeyBase ∧
      syntheticKeyID Models.synthKeyBase ≤ 2 ^ 63 - 1) :=
  ⟨by decide, C10_syntheticKeyID_range Models.synthKeyBase (by decide)⟩

/-- C6 counterexample to the claim as frozen: with NULL fight and pull ids,
replaying the same link insert leaves two rows with the identical
(key, report, fight, pull) tuple, because SQLite's UNIQUE index treats NULLs
as pairwise distinct and so INSERT OR IGNORE does not ignore the replay. -/
theorem C6_counterexample_null_ids :
    (UpsertWarcraftLogsLink (UpsertWarcraftLogsLink emptyDB sampleLinkNull)
        sampleLinkNull).links.countP
      (sameLinkTuple (linkRowOf sampleLinkNull)) = 2 := by decide

/-- C6 as amended: inserting a link twice is idempotent when both fight and
pull ids are present — the store then holds exactly one row conflicting with
that link's (key, report, fight, pull) tuple. -/
theorem C6_insert_or_ignore_unique (db : DB) (link : WarcraftLogsLink)
    (f p : Int) (hf : link.FightID = some f) (hp : link.PullID = some p)
    (hwf : db.links.countP (linkConflict (linkRowOf link)) ≤ 1) :
    (UpsertWarcraftLogsLink (UpsertWarcraftLogsLink db link) link).links.countP
      (linkConflict (linkRowOf link)) = 1 := by
  simp only [UpsertWarcraftLogsLink, insertWarcraftLogsLink]
  set row := linkRowOf link with hrow
  have hself : linkConflict row row = true := by
    simp [hrow, linkRowOf, linkConflict, nullableEq, hf, hp]
  by_cases h1 : db.links.any (linkConflict row) = true
  · have hpos : 0 < db.links.countP (linkConflict row) := by
      rw [List.countP_pos_iff]
      obtain ⟨x, hx, hpx⟩ := List.any_eq_true.mp h1
      exact ⟨x, hx, hpx⟩
    have hcount : db.links.countP (linkConflict row) = 1 := le_antisymm hwf hpos
    rw [if_pos h1, if_pos h1]
    exact hcount
  · rw [if_neg h1]
    have hzero : db.links.countP (linkConflict row) = 0 := by
      rw [List.countP_eq_zero]
      intro a ha hpa
      exact h1 (List.any_eq_true.mpr ⟨a, ha, hpa⟩)
    have hmem : (db.links ++ [row]).any (linkConflict row) = true :=
      List.any_eq_true.mpr ⟨row, by simp, hself⟩
    simp only [hmem, if_true]
    rw [List.countP_append, hzero]
    simp [List.countP_cons, hself]

/-- Searching an appended list when the first part has no hit. -/
theorem find?_append_none {α : Type} (p : α → Bool) :
    ∀ (l₁ : List α), l₁.find? p = none → ∀ l₂ : List α,
      (l₁ ++ l₂).find? p = l₂.find? p := by
  intro l₁
  induction l₁ with
  | nil =>
    intro _ l₂
    simp
  | cons x xs ih =>
    intro h l₂
    cases hx : p x with
    | true => simp [List.find?, hx] at h
    | false =>
      simp only [List.cons_append, List.find?, hx] at h ⊢
      exact ih h l₂

/-- The character upsert never touches the key or link tables. -/
theorem upsertCharacter_keys_links (db : DB) (region realm name : String) :
    ((upsertCharacter db region realm name).2).keys = db.keys ∧
    ((upsertCharacter db region realm name).2).links = db.links := by
  cases h : db.chars.find? (charMatches region realm name) with
  | none => simp [upsertCharacter, h]
  | some c => simp [upsertCharacter, h]

/-- After a character upsert, the natural key resolves to a row carrying the
returned id. -/
theorem upsertCharacter_post_find (db : DB) (region realm name : String) :
    ∃ c : CharRow,
      ((upsertCharacter db region realm name).2).chars.find?
        (charMatches region realm name) = some c ∧
      c.id = (upsertCharacter db region realm name).1 := by
  cases h : db.chars.find? (charMatches region realm name) with
  | some c =>
    refine ⟨c, ?_, ?_⟩ <;> simp [upsertCharacter, h]
  | none =>
    refine ⟨⟨db.nextCharId, region, realm, name⟩, ?_, ?_⟩
    · simp only [upsertCharacter, h]
      rw [find?_append_none _ db.chars h]
      simp [List.find?, charMatches]
    · simp [upsertCharacter, h]

/-- A character upsert whose natural key already resolves is the identity. -/
theorem upsertCharacter_stable (db : DB) (region realm name : String)
    (c : CharRow) (h : db.chars.find? (charMatches region realm name) = some c) :
    upsertCharacter db region realm name = (c.id, db) := by
  simp [upsertCharacter, h]

/-- Replacing the unique `p`-row of a list by `row` leaves `row` as the only
`p`-row. -/
theorem filter_map_replace {α : Type} (p : α → Bool) (row : α)
    (hp : p row = true) :
    ∀ l : List α,
      l.Pairwise (fun a b => ¬(p a = true ∧ p b = true)) →
      l.any p = true →
      (l.map (fun r => if p r then row else r)).filter p = [row] := by
  intro l
  induction l with
  | nil =>
    intro _ h
    simp at h
  | cons x xs ih =>
    intro hpw hany
    by_cases hx : p x = true
    · have hxs : ∀ r ∈ xs, ¬(p r = true) :=
        fun r hr hpr => (List.pairwise_cons.mp hpw).1 r hr ⟨hx, hpr⟩
      have hmap : xs.map (fun r => if p r then row else r) = xs := by
        have heach : ∀ r ∈ xs, (if p r then row else r) = r :=
          fun r hr => if_neg (hxs r hr)
        rw [List.map_congr_left heach, List.map_id']
      have hnil : xs.filter p = [] :=
        List.filter_eq_nil_iff.mpr (fun a ha => by simp [hxs a ha])
      simp [List.filter_cons, hx, hp, hmap, hnil]
    · have hany' : xs.any p = true := by
        simpa [List.any_cons, hx] using hany
      rw [List.map_cons, if_neg hx, List.filter_cons, if_neg hx]
      exact ih (List.pairwise_cons.mp hpw).2 hany'

/-- Appending `row` to a list with no `p`-row leaves `row` as the only
`p`-row. -/
theorem filter_append_single {α : Type} (p : α → Bool) (row : α)
    (hp : p row = true) (l : List α) (hl : l.any p = false) :
    (l ++ [row]).filter p = [row] := by
  rw [List.filter_append]
  have hnil : l.filter p = [] :=
    List.filter_eq_nil_iff.mpr (fun a ha => by
      have := List.any_eq_false.mp hl a ha
      simp [this])
  simp [hnil, List.filter_cons, hp]

/-- The key insert never touches the character table. -/
theorem insertCompletedKey_chars (db : DB) (row : KeyRow) :
    (insertCompletedKey db row).chars = db.chars := by
  unfold insertCompletedKey
  split <;> rfl

/-- After an insert-or-update, the inserted row is the single row of its
composite identity. -/
theorem insertCompletedKey_filter (db : DB) (row : KeyRow) (hwf : KeysWF db) :
    (insertCompletedKey db row).keys.filter
      (keyIdent row.keyId row.charId) = [row] := by
  have hp : keyIdent row.keyId row.charId row = true := by simp [keyIdent]
  unfold insertCompletedKey
  by_cases hany : db.keys.any (keyIdent row.keyId row.charId) = true
  · rw [if_pos hany]
    refine filter_map_replace _ _ hp db.keys ?_ hany
    refine hwf.imp ?_
    intro a b hab hcon
    apply hab
    obtain ⟨hpa, hpb⟩ := hcon
    simp only [keyIdent, Bool.and_eq_true, beq_iff_eq] at hpa hpb
    exact ⟨hpa.1.trans hpb.1.symm, hpa.2.trans hpb.2.symm⟩
  · rw [if_neg hany]
    exact filter_append_single _ _ hp _ (by simpa using hany)

/-- The key insert preserves the uniqueness of composite identities. -/
theorem insertCompletedKey_keysWF (db : DB) (row : KeyRow) (hwf : KeysWF db) :
    KeysWF (insertCompletedKey db row) := by
  unfold KeysWF insertCompletedKey
  by_cases hany : db.keys.any (keyIdent row.keyId row.charId) = true
  · rw [if_pos hany]
    have hid : ∀ r : KeyRow,
        (if keyIdent row.keyId row.charId r then row else r).keyId = r.keyId ∧
        (if keyIdent row.keyId row.charId r then row else r).charId = r.charId := by
      intro r
      by_cases hr : keyIdent row.keyId row.charId r = true
      · simp only [if_pos hr]
        simp only [keyIdent, Bool.and_eq_true, beq_iff_eq] at hr
        exact ⟨hr.1.symm, hr.2.symm⟩
      · simp [hr]
    refine List.Pairwise.map _ ?_ hwf
    intro a b hab hcon
    apply hab
    obtain ⟨ha1, ha2⟩ := hid a
    obtain ⟨hb1, hb2⟩ := hid b
    exact ⟨ha1 ▸ hb1 ▸ hcon.1, ha2 ▸ hb2 ▸ hcon.2⟩
  · rw [if_neg hany]
    rw [List.pairwise_append]
    refine ⟨hwf, List.pairwise_singleton _ _, ?_⟩
    intro a ha b hb
    have hb' : b = row := by simpa using hb
    intro hcon
    rw [hb'] at hcon
    have hpa : keyIdent row.keyId row.charId a = true := by
      simp only [keyIdent, Bool.and_eq_true, beq_iff_eq]
      exact ⟨hcon.1, hcon.2⟩
    exact hany (List.any_eq_true.mpr ⟨a, ha, hpa⟩)

/-- C5: upserting two records with one composite identity — same lower-cased
character triple and same derived key id — leaves exactly one stored row for
that identity, holding the second record's field values. -/
theorem C5_upsert_idempotent (db : DB) (k1 k2 : Models.CompletedKey)
    (hwf : KeysWF db)
    (hreg : Models.toLowerStr k1.Region = Models.toLowerStr k2.Region)
    (hrealm : Models.toLowerStr k1.Realm = Models.toLowerStr k2.Realm)
    (hname : Models.toLowerStr k1.Character = Models.toLowerStr k2.Character)
    (hid : derivedKeyID k1 = derivedKeyID k2) :
    ∃ cid : Int,
      ((UpsertCompletedKey (UpsertCompletedKey db k1) k2).chars.find?
        (charMatches (Models.toLowerStr k2.Region)
          (Models.toLowerStr k2.Realm)
          (Models.toLowerStr k2.Character))).map CharRow.id = some cid ∧
      (UpsertCompletedKey (UpsertCompletedKey db k1) k2).keys.filter
        (keyIdent (derivedKeyID k2) cid) = [keyRowOf k2 cid] ∧
      (UpsertCompletedKey (UpsertCompletedKey db k1) k2).keys.filter
        (keyIdent (derivedKeyID k1) cid) = [keyRowOf k2 cid] := by
  obtain ⟨c, hfind, hcid⟩ := upsertCharacter_post_find db
    (Models.toLowerStr k2.Region) (Models.toLowerStr k2.Realm)
    (Models.toLowerStr k2.Character)
  have hkk : UpsertCompletedKey db k1 =
      insertCompletedKey
        (upsertCharacter db (Models.toLowerStr k2.Region)
          (Models.toLowerStr k2.Realm) (Models.toLowerStr k2.Character)).2
        (keyRowOf k1
          (upsertCharacter db (Models.toLowerStr k2.Region)
            (Models.toLowerStr k2.Realm) (Models.toLowerStr k2.Character)).1) := by
    simp only [UpsertCompletedKey]
    rw [hreg, hrealm, hname]
  set u := upsertCharacter db (Models.toLowerStr k2.Region)
    (Models.toLowerStr k2.Realm) (Models.toLowerStr k2.Character) with hu
  set db1 := insertCompletedKey u.2 (keyRowOf k1 u.1) with hdb1
  have hchars1 : db1.chars = u.2.chars := insertCompletedKey_chars _ _
  have hfind1 : db1.chars.find? (charMatches (Models.toLowerStr k2.Region)
      (Models.toLowerStr k2.Realm) (Models.toLowerStr k2.Character)) = some c := by
    rw [hchars1]
    exact hfind
  have hstab : upsertCharacter db1 (Models.toLowerStr k2.Region)
      (Models.toLowerStr k2.Realm) (Models.toLowerStr k2.Character) =
      (c.id, db1) :=
    upsertCharacter_stable _ _ _ _ _ hfind1
  have hfinal : UpsertCompletedKey (UpsertCompletedKey db k1) k2 =
      insertCompletedKey db1 (keyRowOf k2 c.id) := by
    rw [hkk]
    simp only [UpsertCompletedKey]
    rw [hstab]
  have hwf1 : KeysWF db1 := by
    apply insertCompletedKey_keysWF
    unfold KeysWF
    rw [(upsertCharacter_keys_links db _ _ _).1]
    exact hwf
  have hfilter := insertCompletedKey_filter db1 (keyRowOf k2 c.id) hwf1
  refine ⟨c.id, ?_, ?_, ?_⟩
  · rw [hfinal, insertCompletedKey_chars, hfind1]
    rfl
  · rw [hfinal]
    exact hfilter
  · rw [hfinal, hid]
    exact hfilter

/-- Witness for C5 on a fresh database and two concrete same-identity
records with differing payloads. -/
theorem C5_upsert_idempotent_witness :
    (KeysWF emptyDB ∧
      Models.toLowerStr upsertKeyFirst.Region =
        Models.toLowerStr upsertKeySecond.Region ∧
      derivedKeyID upsertKeyFirst = derivedKeyID upsertKeySecond) ∧
    (∃ cid : Int,
      ((UpsertCompletedKey (UpsertCompletedKey emptyDB upsertKeyFirst)
          upsertKeySecond).chars.find?
        (charMatches (Models.toLowerStr upsertKeySecond.Region)
          (Models.toLowerStr upsertKeySecond.Realm)
          (Models.toLowerStr upsertKeySecond.Character))).map CharRow.id =
        some cid ∧
      (UpsertCompletedKey (UpsertCompletedKey emptyDB upsertKeyFirst)
          upsertKeySecond).keys.filter
        (keyIdent (derivedKeyID upsertKeySecond) cid) =
        [keyRowOf upsertKeySecond cid] ∧
      (UpsertCompletedKey (UpsertCompletedKey emptyDB upsertKeyFirst)
          upsertKeySecond).keys.filter
        (keyIdent (derivedKeyID upsertKeyFirst) cid) =
        [keyRowOf upsertKeySecond cid]) :=
  ⟨⟨List.Pairwise.nil, rfl, by decide⟩,
    C5_upsert_idempotent emptyDB upsertKeyFirst upsertKeySecond
      List.Pairwise.nil rfl rfl rfl (by decide)⟩

/-- Witness for the amended C6 with both ids present, on a fresh database. -/
theorem C6_insert_or_ignore_unique_witness :
    (sampleLinkFull.FightID = some 3 ∧ sampleLinkFull.PullID = some 4 ∧
      emptyDB.links.countP (linkConflict (linkRowOf sampleLinkFull)) ≤ 1) ∧
    (UpsertWarcraftLogsLink (UpsertWarcraftLogsLink emptyDB sampleLinkFull)
        sampleLinkFull).links.countP
      (linkConflict (linkRowOf sampleLinkFull)) = 1 :=
  ⟨⟨rfl, rfl, by decide⟩,
    C6_insert_or_ignore_unique emptyDB sampleLinkFull 3 4 rfl rfl (by decide)⟩

end Store

namespace Raiderio

/-- The known-ID set only grows during a cycle. -/
theorem pollFold_contains_mono (cut : String → Bool) (s : String) :
    ∀ (keys : List Models.CompletedKey) (st : PollCounts),
      st.known.contains s = true →
      ((keys.foldl (processKey cut) st).known.contains s) = true := by
  intro keys
  induction keys with
  | nil =>
    intro st h
    simpa using h
  | cons k ks ih =>
    intro st h
    simp only [List.foldl_cons]
    apply ih
    simp only [processKey]
    split_ifs
    · exact h
    · exact h
    · simp only [List.contains_cons, Bool.or_eq_true]
      exact Or.inr h

/-- A cycle whose every payload key is already cut off or known changes
nothing: no writes, no match attempts, no new known ids. -/
theorem pollFold_skip (cut : String → Bool) :
    ∀ (keys : List Models.CompletedKey) (st : PollCounts),
      (∀ k ∈ keys, cut k.CompletedAt = true →
        st.known.contains k.KeyIDOrSynthetic = true) →
      keys.foldl (processKey cut) st = st := by
  intro keys
  induction keys with
  | nil =>
    intro st _
    rfl
  | cons k ks ih =>
    intro st hall
    simp only [List.foldl_cons]
    have hk : processKey cut st k = st := by
      simp only [processKey]
      split_ifs with h1 h2
      · rfl
      · rfl
      · exact absurd (hall k (by simp) (by simpa using h1)) (by simpa using h2)
    rw [hk]
    exact ih st (fun q hq => hall q (by simp [hq]))

/-- Every payload key past the cutoff ends the cycle in the known set. -/
theorem pollFold_adds_all (cut : String → Bool) :
    ∀ (keys : List Models.CompletedKey) (st : PollCounts)
      (k : Models.CompletedKey), k ∈ keys → cut k.CompletedAt = true →
      ((keys.foldl (processKey cut) st).known.contains k.KeyIDOrSynthetic) = true := by
  intro keys
  induction keys with
  | nil =>
    intro st k hk
    cases hk
  | cons x xs ih =>
    intro st k hk hcut
    simp only [List.foldl_cons]
    rcases List.mem_cons.mp hk with rfl | hmem
    · have hc : (processKey cut st k).known.contains k.KeyIDOrSynthetic = true := by
        simp only [processKey]
        split_ifs with h1 h2
        · exact absurd hcut (by simpa using h1)
        · exact h2
        · simp [List.contains_cons]
      exact pollFold_contains_mono cut _ xs _ hc
    · exact ih _ k hmem hcut

/-- C7: replaying the identical fetch payload right after a cycle performs
zero store writes and zero match attempts, because every payload key is then
either before the epoch cutoff or already in the known-ID set. -/
theorem C7_replay_is_noop (cut : String → Bool) (known : List String)
    (keys : List Models.CompletedKey) :
    (pollOnce cut (pollOnce cut known keys).known keys).writes = 0 ∧
    (pollOnce cut (pollOnce cut known keys).known keys).matchAttempts = 0 ∧
    ∀ k ∈ keys, cut k.CompletedAt = true →
      ((pollOnce cut known keys).known.contains k.KeyIDOrSynthetic) = true := by
  have hall : ∀ k ∈ keys, cut k.CompletedAt = true →
      ((pollOnce cut known keys).known.contains k.KeyIDOrSynthetic) = true :=
    fun k hk hcut => pollFold_adds_all cut keys ⟨known, 0, 0⟩ k hk hcut
  have hskip : pollOnce cut (pollOnce cut known keys).known keys =
      ⟨(pollOnce cut known keys).known, 0, 0⟩ := by
    simp only [pollOnce]
    exact pollFold_skip cut keys ⟨(pollOnce cut known keys).known, 0, 0⟩ hall
  exact ⟨by rw [hskip], by rw [hskip], hall⟩

/-- Witness for C7 on a concrete one-key payload: the replayed cycle is a
no-op. -/
theorem C7_replay_is_noop_witness :
    (pollOnce (fun _ => true)
        (pollOnce (fun _ => true) [] [Store.upsertKeyFirst]).known
        [Store.upsertKeyFirst]).writes = 0 ∧
    (pollOnce (fun _ => true)
        (pollOnce (fun _ => true) [] [Store.upsertKeyFirst]).known
        [Store.upsertKeyFirst]).matchAttempts = 0 ∧
    ∀ k ∈ [Store.upsertKeyFirst], (fun (_ : String) => true) k.CompletedAt = true →
      ((pollOnce (fun _ => true) [] [Store.upsertKeyFirst]).known.contains
        k.KeyIDOrSynthetic) = true :=
  C7_replay_is_noop (fun _ => true) [] [Store.upsertKeyFirst]

/-- The initial all-sleeping configuration holds no semaphore slot. -/
theorem countP_replicate_phase (n : Nat) (p : Phase → Bool) (a : Phase)
    (hp : p a = false) : (List.replicate n a).countP p = 0 := by
  induction n with
  | zero => rfl
  | succ m ih => simp [List.replicate_succ, List.countP_cons, hp, ih]

/-- Semaphore safety: in every reachable state, at most `cap` tasks hold a
slot. -/
theorem reachable_holders_le (cap n : Nat) (s : List Phase)
    (h : Reachable cap n s) : s.countP holdsSem ≤ cap := by
  induction h with
  | refl =>
    rw [countP_replicate_phase n holdsSem Phase.sleeping rfl]
    exact Nat.zero_le cap
  | tail _hpre hstep ih =>
    cases hstep with
    | wake l r =>
      simp [List.countP_append, List.countP_cons, holdsSem] at ih ⊢ <;> omega
    | acquire l r hroom =>
      simp [List.countP_append, List.countP_cons, holdsSem] at ih hroom ⊢ <;> omega
    | fetchDone l r =>
      simp [List.countP_append, List.countP_cons, holdsSem] at ih ⊢ <;> omega
    | release l r =>
      simp [List.countP_append, List.countP_cons, holdsSem] at ih ⊢ <;> omega

/-- C9: in every state the polling system can reach, the number of tasks
inside `FetchWeeklyRuns` never exceeds the semaphore capacity. -/
theorem C9_fetches_bounded (cap n : Nat) (s : List Phase)
    (h : Reachable cap n s) : s.countP inFetch ≤ cap := by
  have hmono : s.countP inFetch ≤ s.countP holdsSem := by
    apply List.countP_mono_left
    intro x _ hx
    cases x <;> simp_all [inFetch, holdsSem]
  exact le_trans hmono (reachable_holders_le cap n s h)

/-- Witness for C9 on a concrete reachable state with one task mid-fetch
under capacity one. -/
theorem C9_fetches_bounded_witness :
    Reachable 1 1 [Phase.fetching] ∧
    ([Phase.fetching] : List Phase).countP inFetch ≤ 1 := by
  have h1 : Step 1 [Phase.sleeping] [Phase.waiting] := Step.wake [] []
  have h2 : Step 1 [Phase.waiting] [Phase.fetching] :=
    Step.acquire [] [] (by decide)
  have hreach : Reachable 1 1 [Phase.fetching] :=
    Relation.ReflTransGen.tail (Relation.ReflTransGen.tail
      Relation.ReflTransGen.refl h1) h2
  exact ⟨hreach, C9_fetches_bounded 1 1 [Phase.fetching] hreach⟩

end Raiderio

end CelestialOrrey
